import Mathlib

/-!
Verification of the timetable frontend's conflict-detection and
name-normalization core, shallowly embedded from the JavaScript sources
(src/context/ScheduleContext.js, src/components/ConflictPage.js and the
conflict-count badge in src/App.js).

Strings are modelled as Lean strings (lists of characters); the JavaScript
regular-expression rewrites of normalizeTeacherName are translated rule by
rule into executable functions on character lists.
-/

namespace Timetable

/-- The set of characters matched by the JavaScript regex class backslash-s
and removed by String.prototype.trim. -/
def isJsWs (c : Char) : Bool :=
  let n := c.toNat
  n == 0x09 || n == 0x0A || n == 0x0B || n == 0x0C || n == 0x0D ||
  n == 0x20 || n == 0xA0 || n == 0x1680 || (0x2000 ≤ n && n ≤ 0x200A) ||
  n == 0x2028 || n == 0x2029 || n == 0x202F || n == 0x205F || n == 0x3000 ||
  n == 0xFEFF

/-- JavaScript line terminators (which the regex dot does not match). -/
def isLineTerm (c : Char) : Bool :=
  let n := c.toNat
  n == 0x0A || n == 0x0D || n == 0x2028 || n == 0x2029

def isDigitCh (c : Char) : Bool :=
  '0' ≤ c && c ≤ '9'

/-- The JavaScript regex class backslash-w: ASCII letters, digits, underscore. -/
def isWordCh (c : Char) : Bool :=
  ('a' ≤ c && c ≤ 'z') || ('A' ≤ c && c ≤ 'Z') || isDigitCh c || c == '_'

def isLowerCh (c : Char) : Bool :=
  'a' ≤ c && c ≤ 'z'

def isUpperCh (c : Char) : Bool :=
  'A' ≤ c && c ≤ 'Z'

/-- Character lowering as performed by String.prototype.toLowerCase,
restricted to the ASCII and basic Cyrillic ranges that occur in this
code base. -/
def jsLowerChar (c : Char) : Char :=
  if 'A' ≤ c && c ≤ 'Z' then Char.ofNat (c.toNat + 32)
  else if 0x410 ≤ c.toNat && c.toNat ≤ 0x42F then Char.ofNat (c.toNat + 32)
  else if c.toNat == 0x401 then Char.ofNat 0x451
  else c

def lowEq (c x : Char) : Bool :=
  jsLowerChar c == x

def lowList (l : List Char) : List Char :=
  l.map jsLowerChar

/-- Does l start with the given (already lowercased) pattern, compared
case-insensitively? -/
def startsWithCI (pat l : List Char) : Bool :=
  lowList (l.take pat.length) == pat

def jsLowerStr (s : String) : String :=
  ⟨lowList s.data⟩

def hasLineTerm (l : List Char) : Bool :=
  l.any isLineTerm

/-- Leading-whitespace removal, one half of String.prototype.trim. -/
def trimLead (l : List Char) : List Char :=
  l.dropWhile isJsWs

/-- String.prototype.trim on character lists. -/
def jsTrim (l : List Char) : List Char :=
  ((trimLead l).reverse.dropWhile isJsWs).reverse

theorem dropWhile_length_le (p : α → Bool) (l : List α) :
    (l.dropWhile p).length ≤ l.length := by
  induction l with
  | nil => simp [List.dropWhile]
  | cons a l ih =>
    simp only [List.dropWhile]
    split
    · exact Nat.le_trans ih (Nat.le_succ _)
    · simp

/-- Worker for collapseWs; the flag records that the current whitespace run
has already been replaced by a single space, so further whitespace
characters of the run are skipped. -/
def collapseAux : Bool → List Char → List Char
  | _, [] => []
  | inRun, c :: cs =>
    if isJsWs c then
      if inRun then collapseAux true cs
      else
        match cs with
        | [] => [c]
        | d :: _ =>
          if isJsWs d then ' ' :: collapseAux true cs
          else c :: collapseAux false cs
    else c :: collapseAux false cs

/-- Global replacement for the regex matching two-or-more whitespace
characters, replacing each maximal run by a single space; single
whitespace characters are left as they are. -/
def collapseWs (l : List Char) : List Char :=
  collapseAux false l

/-- Replace the first match: the matcher receives the current suffix and
returns the replacement together with (consumed length minus one). -/
def replaceFirst (m : List Char → Option (List Char × Nat)) :
    List Char → List Char
  | [] => []
  | c :: cs =>
    match m (c :: cs) with
    | some (rep, k) => rep ++ (c :: cs).drop (k + 1)
    | none => c :: replaceFirst m cs

/-- Worker for replaceGlobal; every match consumes at least one character,
so fuel of one more than the string length never runs out. -/
def replaceGlobalAux (m : Option Char → List Char → Option (List Char × Nat)) :
    Nat → Option Char → List Char → List Char
  | 0, _, l => l
  | _ + 1, _, [] => []
  | fuel + 1, prev, c :: cs =>
    match m prev (c :: cs) with
    | some (rep, k) =>
      rep ++ replaceGlobalAux m fuel (((c :: cs).take (k + 1)).getLast?)
        ((c :: cs).drop (k + 1))
    | none => c :: replaceGlobalAux m fuel (some c) cs

/-- Global replacement: the matcher receives the character preceding the
current position (for word-boundary tests) and the current suffix, and
returns the replacement together with (consumed length minus one). -/
def replaceGlobal (m : Option Char → List Char → Option (List Char × Nat))
    (prev : Option Char) (l : List Char) : List Char :=
  replaceGlobalAux m (l.length + 1) prev l

/-- Delete from the first position whose suffix satisfies p, to the end of
the string (used for regexes anchored at the end of input). -/
def delFrom (p : List Char → Bool) : List Char → List Char
  | [] => []
  | c :: cs => if p (c :: cs) then [] else c :: delFrom p cs

/-- Length of the greedy dot-star match (stops at line terminators). -/
def starLen (l : List Char) : Nat :=
  (l.takeWhile (fun c => !isLineTerm c)).length

/-- Word-boundary test after a word character: the remaining suffix is
empty or starts with a non-word character. -/
def boundaryOk (t : List Char) : Bool :=
  match t with
  | [] => true
  | c :: _ => !isWordCh c

/-- Second group of the first normalizer rewrite: LAB digits, BIGLAB, or
B digits, tried in the source's alternation order. -/
def roomAfterLower (rest : List Char) : Option (List Char) :=
  if rest.take 3 == ['L', 'A', 'B'] then
    some (['L', 'A', 'B'] ++ (rest.drop 3).takeWhile isDigitCh)
  else if rest.take 6 == ['B', 'I', 'G', 'L', 'A', 'B'] then
    some ['B', 'I', 'G', 'L', 'A', 'B']
  else
    match rest with
    | 'B' :: ds =>
      let d := ds.takeWhile isDigitCh
      if d.isEmpty then none else some ('B' :: d)
    | _ => none

def r1m (_prev : Option Char) (l : List Char) : Option (List Char × Nat) :=
  match l with
  | c :: rest =>
    if isLowerCh c then
      match roomAfterLower rest with
      | some tok => some (c :: ' ' :: tok, tok.length)
      | none => none
    else none
  | [] => none

/-- Rewrite 1: insert a space between a lowercase letter and an adjacent
room token (global). -/
def r1 (l : List Char) : List Char := replaceGlobal r1m none l

/-- Rewrite 2: strip leading slashes. -/
def r2 (l : List Char) : List Char := l.dropWhile (fun c => c == '/')

/-- Rewrite 3: cut from the first slash to the end of input (the dot-star
must reach the end, so the slash has to lie after the last line
terminator). -/
def r3 (l : List Char) : List Char :=
  delFrom (fun t =>
    match t with
    | '/' :: r => !hasLineTerm r
    | _ => false) l

def p4 (l : List Char) : Bool :=
  match l.dropWhile isJsWs with
  | '(' :: r =>
    match r.dropWhile (fun c => !(c == ')')) with
    | ')' :: r2 => (r2.dropWhile isJsWs).isEmpty
    | _ => false
  | _ => false

/-- Rewrite 4: strip a trailing parenthetical note. -/
def r4 (l : List Char) : List Char := delFrom p4 l

def m5 (l : List Char) : Option (List Char × Nat) :=
  let w := l.takeWhile isJsWs
  if w.isEmpty then none
  else
    let t := l.dropWhile isJsWs
    if startsWithCI ['u', 'n', 't', 'i'] t then
      let t2 := t.drop 4
      let ls := t2.takeWhile (fun c => lowEq c 'l')
      if ls.isEmpty then none
      else
        let t3 := t2.drop ls.length
        if boundaryOk t3 then
          some ([], w.length + 4 + ls.length + starLen t3 - 1)
        else none
    else none

/-- Rewrite 5: drop a trailing "until ..." phrase (case-insensitive). -/
def r5 (l : List Char) : List Char := replaceFirst m5 l

def m6 (l : List Char) : Option (List Char × Nat) :=
  let w := l.takeWhile isJsWs
  if w.isEmpty then none
  else
    let t := l.dropWhile isJsWs
    let viaWith : Option Nat :=
      if startsWithCI ['w', 'i', 't', 'h'] t then
        let t1 := t.drop 4
        let w2 := t1.takeWhile isJsWs
        if w2.isEmpty then none
        else
          let t2 := t1.drop w2.length
          if startsWithCI ['o', 'w', 'n'] t2 && boundaryOk (t2.drop 3) then
            some (4 + w2.length + 3 + starLen (t2.drop 3))
          else none
      else none
    match viaWith with
    | some n => some ([], w.length + n - 1)
    | none =>
      if startsWithCI ['o', 'w', 'n'] t && boundaryOk (t.drop 3) then
        some ([], w.length + 3 + starLen (t.drop 3) - 1)
      else none

/-- Rewrite 6: drop a trailing "(with) own ..." phrase (case-insensitive). -/
def r6 (l : List Char) : List Char := replaceFirst m6 l

def m7 (l : List Char) : Option (List Char × Nat) :=
  let w := l.takeWhile isJsWs
  if w.isEmpty then none
  else
    let t := l.dropWhile isJsWs
    if startsWithCI ['m', 'a', 'k', 'e'] t then
      let t1 := t.drop 4
      let w2 := t1.takeWhile isJsWs
      if w2.isEmpty then none
      else
        let t2 := t1.drop w2.length
        if startsWithCI ['u', 'p'] t2 && boundaryOk (t2.drop 2) then
          some ([], w.length + 4 + w2.length + 2 + starLen (t2.drop 2) - 1)
        else none
    else none

/-- Rewrite 7: drop a trailing "make up ..." phrase (case-insensitive). -/
def r7 (l : List Char) : List Char := replaceFirst m7 l

def m8 (l : List Char) : Option (List Char × Nat) :=
  let w := l.takeWhile isJsWs
  if w.isEmpty then none
  else
    let t := l.dropWhile isJsWs
    if startsWithCI ['a', 't'] t then
      let t1 := t.drop 2
      let w2 := t1.takeWhile isJsWs
      if w2.isEmpty then none
      else
        let t2 := t1.drop w2.length
        let d1 := t2.takeWhile isDigitCh
        if d1.isEmpty then none
        else
          match t2.drop d1.length with
          | c :: t3 =>
            if c == ':' || c == '.' then
              let d2 := t3.takeWhile isDigitCh
              if d2.isEmpty then none
              else
                some ([], w.length + 2 + w2.length + d1.length + 1 +
                  d2.length + starLen (t3.drop d2.length) - 1)
            else none
          | [] => none
    else none

/-- Rewrite 8: drop a trailing "at hh:mm ..." phrase (case-insensitive). -/
def r8 (l : List Char) : List Char := replaceFirst m8 l

/-- Rewrite 9: drop optional whitespace, a slash, and everything up to the
end of input. -/
def r9 (l : List Char) : List Char :=
  delFrom (fun t =>
    match t.dropWhile isJsWs with
    | '/' :: r => !hasLineTerm r
    | _ => false) l

/-- Rewrite 10: drop optional whitespace, a plus sign, and everything up to
the end of input. -/
def r10 (l : List Char) : List Char :=
  delFrom (fun t =>
    match t.dropWhile isJsWs with
    | '+' :: r => !hasLineTerm r
    | _ => false) l

def parenDigits (d : List Char) : Bool :=
  match d with
  | '(' :: r =>
    let ds := r.takeWhile isDigitCh
    !ds.isEmpty && r.drop ds.length == [')']
  | _ => false

/-- Tail of the LAB alternative: digits, then an optional parenthesised
digit group, consuming the whole suffix. -/
def labTail (u : List Char) : Bool :=
  let rest := u.dropWhile isDigitCh
  rest.isEmpty || parenDigits rest

/-- Tail of the B alternative: an optional whitespace character, then any
word characters, consuming the whole suffix. -/
def bTail (u : List Char) : Bool :=
  match u with
  | [] => true
  | d :: v => if isJsWs d then v.all isWordCh else u.all isWordCh

/-- One alternative of the trailing-room pattern, matched against the whole
remaining suffix (case-insensitively). -/
def altFull (t : List Char) : Bool :=
  match t with
  | [] => false
  | c :: u =>
    (lowEq c 'b' && bTail u) ||
    (lowEq c 'a' && !u.isEmpty && u.all isDigitCh) ||
    (startsWithCI ['l', 'a', 'b'] t && labTail (t.drop 3)) ||
    (lowList t == ['b', 'i', 'g', 'l', 'a', 'b']) ||
    (lowList t == ['l', 'i', 'n', 'k']) ||
    (lowList t == ['w', 'e', 'b']) ||
    ((c.toNat == 0x438 || c.toNat == 0x418) && !u.isEmpty && u.all isDigitCh)

def roomEndP (l : List Char) : Bool :=
  !(l.takeWhile isJsWs).isEmpty && altFull (l.dropWhile isJsWs)

def stripRoomsAux : Nat → List Char → List Char
  | 0, l => l
  | n + 1, l =>
    let l2 := jsTrim (delFrom roomEndP l)
    if l2 == l then l else stripRoomsAux n l2

/-- Rewrite 11: repeatedly strip a trailing room token (with trimming), to
a fixpoint, mirroring the do-while loop over TRAILING_ROOM. -/
def r11 (l : List Char) : List Char := stripRoomsAux (l.length + 1) l

def m12 (_prev : Option Char) (l : List Char) : Option (List Char × Nat) :=
  match l with
  | ',' :: r =>
    let t := r.dropWhile isJsWs
    match t with
    | c :: u =>
      if c == 'B' || c == 'b' then
        let d := u.takeWhile isDigitCh
        if d.isEmpty then none
        else
          some ([], 1 + (r.length - t.length) + 1 + d.length +
            starLen (u.drop d.length) - 1)
      else none
    | [] => none
  | _ => none

/-- Rewrite 12: drop a comma followed by a room number and the rest of the
line (global). -/
def r12 (l : List Char) : List Char := replaceGlobal m12 none l

/-- Rewrite 13: strip trailing commas. -/
def r13 (l : List Char) : List Char :=
  delFrom (fun t => t.all (fun c => c == ',')) l

def titles : List (List Char) :=
  [['D', 'r'], ['M', 'r'], ['M', 's'], ['M', 'r', 's'], ['P', 'r', 'o', 'f']]

def prevNonWord (prev : Option Char) : Bool :=
  match prev with
  | none => true
  | some c => !isWordCh c

def tryTitleDot : List (List Char) → List Char → Option (List Char × Nat)
  | [], _ => none
  | T :: Ts, l =>
    if l.take T.length == T then
      match l.drop T.length with
      | '.' :: w :: _ =>
        if isWordCh w then some (T ++ ['.', ' ', w], T.length + 1)
        else tryTitleDot Ts l
      | _ => tryTitleDot Ts l
    else tryTitleDot Ts l

def m14 (prev : Option Char) (l : List Char) : Option (List Char × Nat) :=
  if prevNonWord prev then tryTitleDot titles l else none

/-- Rewrite 14: normalize "Title.Name" to "Title. Name" (global,
case-sensitive, with a leading word boundary). -/
def r14 (l : List Char) : List Char := replaceGlobal m14 none l

def tryTitleSp : List (List Char) → List Char → Option (List Char × Nat)
  | [], _ => none
  | T :: Ts, l =>
    if l.take T.length == T then
      let rest := l.drop T.length
      let w := rest.takeWhile isJsWs
      if w.isEmpty then tryTitleSp Ts l
      else
        match rest.drop w.length with
        | c :: _ =>
          if isUpperCh c then some (T ++ ['.', ' '], T.length + w.length - 1)
          else tryTitleSp Ts l
        | [] => tryTitleSp Ts l
    else tryTitleSp Ts l

def m15 (prev : Option Char) (l : List Char) : Option (List Char × Nat) :=
  if prevNonWord prev then tryTitleSp titles l else none

/-- Rewrite 15: insert ". " after a bare title followed by whitespace and a
capitalised name (global; the capital is a lookahead, not consumed). -/
def r15 (l : List Char) : List Char := replaceGlobal m15 none l

/-- Full-string test for a bare room token (B digits with an optional
parenthesised word). -/
def isRoomTokenFull (l : List Char) : Bool :=
  match l with
  | c :: r =>
    (c == 'B' || c == 'b') &&
    (let d := r.takeWhile isDigitCh
     !d.isEmpty &&
     (match r.drop d.length with
      | [] => true
      | '(' :: r2 =>
        let w := r2.takeWhile isWordCh
        !w.isEmpty && r2.drop w.length == [')']
      | _ => false))
  | [] => false

def wsAt (l : List Char) (n : Nat) : Bool :=
  match l.drop n with
  | c :: _ => isJsWs c
  | [] => false

/-- Prefix test for strings that are mis-parsed cells, not teacher names
(case-insensitive). -/
def isJunkStart (l : List Char) : Bool :=
  startsWithCI ['a', 'l', 'a', 't', 'o', 'o'] l ||
  (startsWithCI ['g', 'e', 'r', 'm', 'a', 'n'] l && wsAt l 6) ||
  (startsWithCI ['d', 'e', 'v', 'o', 'p', 's'] l && wsAt l 6) ||
  (startsWithCI ['t', 'i', 'm', 'e'] l &&
    (let t := l.drop 4
     let w := t.takeWhile isJsWs
     !w.isEmpty && startsWithCI ['c', 'l', 'u', 'b'] (t.drop w.length))) ||
  (startsWithCI ['p', 'r', 'o', 'g', 'r', 'a', 'm', 's'] l && wsAt l 8) ||
  startsWithCI ['c', 'o', 'u', 'r', 's', 'e'] l ||
  (startsWithCI ['c', 'o', 'm'] l && boundaryOk (l.drop 3)) ||
  startsWithCI ['(', 'c', 'o', 'm', ')'] l ||
  startsWithCI ['b', '2', '0', '1'] l

/-- The fixed table of known misspellings and short forms, keyed by the
lowercased cleaned-up name. -/
def TEACHER_CANONICAL : List (String × String) :=
  [("dr. daniyar satybaldiev", "Dr. Daniiar Satybaldiev"),
   ("mr. daniyar satybaldiev", "Dr. Daniiar Satybaldiev"),
   ("dr daniiar satybaldiev", "Dr. Daniiar Satybaldiev"),
   ("mr. daniiar satybaldiev", "Dr. Daniiar Satybaldiev"),
   ("dr. daniar satybaldiev", "Dr. Daniiar Satybaldiev"),
   ("mr. daniar satybaldiev", "Dr. Daniiar Satybaldiev"),
   ("mr. nurlan mukambetov", "Mr. Nurlan Mukambaev"),
   ("mr. erustan erkebulanov", "Mr. Erustan Erkebulanov"),
   ("dr. sheraly matanov", "Dr. Sherali Matanov"),
   ("mr. hussien chebsi", "Mr. Hussein Chebsi"),
   ("mr. ahmad sarosh", "Dr. Ahmad Sarosh"),
   ("ms. cholpon alieva", "Dr. Cholpon Alieva"),
   ("dr.cholpon alieva", "Dr. Cholpon Alieva"),
   ("alimpieva.l.v", "Alimpieva L."),
   ("ms. saidalieva a.", "Ms. Saidalieva"),
   ("ms. bopushova asina", "Ms. Asina"),
   ("ms. meerim", "Ms. Meerim Chukaeva"),
   ("ms. meerim chukaeva (own device)", "Ms. Meerim Chukaeva"),
   ("mr. murrey", "Mr. Murrey Eldred"),
   ("ms. tattybubu arap kyzy", "Ms. Tattybubu")]

def lookupCanon (k : String) : Option String :=
  (TEACHER_CANONICAL.find? (fun p => p.1 == k)).map (fun p => p.2)

/-- The final steps of the normalizer: collapse whitespace, trim, discard
empty or junk results, and apply the canonical-name table. -/
def finalize (l : List Char) : String :=
  let s := jsTrim (collapseWs l)
  if s.isEmpty then ""
  else if isRoomTokenFull s then ""
  else if isJunkStart s then ""
  else
    match lookupCanon ⟨lowList s⟩ with
    | some v => v
    | none => ⟨s⟩

/-- The rewrite pipeline of normalizeTeacherName, in source order; every
step from rewrite 2 to rewrite 13 is followed by a trim exactly as in the
source (rewrite 11 trims inside its loop). -/
def pipeline (l : List Char) : List Char :=
  let s0 := jsTrim l
  let s1 := r1 s0
  let s2 := jsTrim (r2 s1)
  let s3 := jsTrim (r3 s2)
  let s4 := jsTrim (r4 s3)
  let s5 := jsTrim (r5 s4)
  let s6 := jsTrim (r6 s5)
  let s7 := jsTrim (r7 s6)
  let s8 := jsTrim (r8 s7)
  let s9 := jsTrim (r9 s8)
  let s10 := jsTrim (r10 s9)
  let s11 := r11 s10
  let s12 := jsTrim (r12 s11)
  let s13 := jsTrim (r13 s12)
  let s14 := r14 s13
  r15 s14

/-- normalizeTeacherName from src/context/ScheduleContext.js. -/
def normalizeTeacherName (raw : String) : String :=
  if raw == "" then "" else finalize (pipeline raw.data)

/-- One scheduled class, as stored in the schedule map. -/
structure Entry where
  group : String
  day : String
  time : String
  course : String
  teacher : String
  room : String
  subjectType : String
  duration : Nat
deriving DecidableEq, Repr

/-- The schedule map: a JavaScript object modelled as an association list
in key-insertion order. -/
abbrev SMap := List (String × Entry)

/-- The class-data argument of addOrUpdateClass; optional fields model
properties that may be absent in JavaScript. -/
structure ClassData where
  course : String
  teacher : Option String
  room : Option String
  subjectType : Option String
  duration : Option Nat
deriving DecidableEq, Repr

def mkKey (group day time : String) : String :=
  group ++ "-" ++ day ++ "-" ++ time

def keyOf (e : Entry) : String :=
  mkKey e.group e.day e.time

/-- Object property write: replace in place when the key exists, append
otherwise. -/
def setKey (m : SMap) (k : String) (v : Entry) : SMap :=
  if m.any (fun p => p.1 == k) then
    m.map (fun p => if p.1 == k then (k, v) else p)
  else m ++ [(k, v)]

/-- Object property delete. -/
def delKey (m : SMap) (k : String) : SMap :=
  m.filter (fun p => p.1 != k)

/-- Object property read. -/
def getKey (m : SMap) (k : String) : Option Entry :=
  (m.find? (fun p => p.1 == k)).map (fun p => p.2)

/-- The state update of addOrUpdateClass: build the composite key and store
an entry with defaulted teacher, room, subjectType and duration fields. -/
def addOrUpdateClass (m : SMap) (group day time : String) (cd : ClassData) :
    SMap :=
  setKey m (mkKey group day time)
    { group := group, day := day, time := time, course := cd.course,
      teacher := cd.teacher.getD "",
      room := cd.room.getD "",
      subjectType :=
        match cd.subjectType with
        | some s => if s == "" then "lecture" else s
        | none => "lecture",
      duration := cd.duration.getD 1 }

/-- The state update of deleteClass. -/
def deleteClass (m : SMap) (group day time : String) : SMap :=
  delKey m (mkKey group day time)

/-- The state update of moveClass: relocate the source entry to the
destination key, rewriting its coordinates; swap when the destination is
occupied, otherwise remove the old key; no-op when the source is absent. -/
def moveClass (m : SMap) (fG fD fT tG tD tT : String) : SMap :=
  let fromKey := mkKey fG fD fT
  let toKey := mkKey tG tD tT
  match getKey m fromKey with
  | none => m
  | some fd =>
    let m1 := setKey m toKey { fd with group := tG, day := tD, time := tT }
    match getKey m toKey with
    | some td => setKey m1 fromKey { td with group := fG, day := fD, time := fT }
    | none => delKey m1 fromKey

/-- The schedule part of deleteGroup: keep only entries of other groups. -/
def deleteGroupMap (m : SMap) (g : String) : SMap :=
  m.filter (fun p => p.2.group != g)

/-- The group-list part of deleteGroup. -/
def deleteGroupList (groups : List String) (g : String) : List String :=
  groups.filter (fun x => x != g)

/-- The mutation operations of the schedule store. -/
inductive Op where
  | upsert (group day time : String) (cd : ClassData)
  | del (group day time : String)
  | move (fG fD fT tG tD tT : String)
  | delGroup (g : String)

def applyOp (m : SMap) : Op → SMap
  | Op.upsert g d t cd => addOrUpdateClass m g d t cd
  | Op.del g d t => deleteClass m g d t
  | Op.move fG fD fT tG tD tT => moveClass m fG fD fT tG tD tT
  | Op.delGroup g => deleteGroupMap m g

/-- Run a sequence of mutations starting from the empty schedule map. -/
def runOps (ops : List Op) : SMap :=
  ops.foldl applyOp []

/-- Sorted-insert for the lexicographic (code-unit) order used by the
JavaScript default array sort. -/
def charListLe : List Char → List Char → Bool
  | [], _ => true
  | _ :: _, [] => false
  | a :: l, b :: r =>
    if a.toNat < b.toNat then true
    else if b.toNat < a.toNat then false
    else charListLe l r

def strLeB (a b : String) : Bool := charListLe a.data b.data

def insertSorted (x : String) : List String → List String
  | [] => [x]
  | y :: ys => if strLeB x y then x :: y :: ys else y :: insertSorted x ys

def sortStrings (l : List String) : List String :=
  l.foldr insertSorted []

/-- The forEach loop of buildTeacherList: normalize each teacher, skip
empty or already-seen values, and collect in first-seen order. -/
def collectNorms : List Entry → List String → List String
  | [], acc => acc
  | e :: es, acc =>
    let n := normalizeTeacherName e.teacher
    if n == "" || acc.contains n then collectNorms es acc
    else collectNorms es (acc ++ [n])

/-- buildTeacherList from src/context/ScheduleContext.js: deduplicated,
sorted list of normalized teacher names over the schedule's values. -/
def buildTeacherList (m : SMap) : List String :=
  sortStrings (collectNorms (m.map (fun p => p.2)) [])

/-- A detected double-booking, shaped as in ConflictPage.js. -/
structure Conflict where
  type : String
  day : String
  time : String
  value : String
  entries : List Entry
  id : String
deriving DecidableEq, Repr

/-- Insert an entry into the bucket with the given key, appending a fresh
bucket at the end when the key is new (object key-insertion order). -/
def addToBuckets (k : String) (e : Entry) :
    List (String × List Entry) → List (String × List Entry)
  | [] => [(k, [e])]
  | (k', es) :: bs =>
    if k' == k then (k', es ++ [e]) :: bs else (k', es) :: addToBuckets k e bs

/-- The teacherMap / roomMap construction over one slot. -/
def mkBuckets (key : Entry → String) (keep : Entry → Bool)
    (slot : List Entry) : List (String × List Entry) :=
  slot.foldl (fun bs e => if keep e then addToBuckets (key e) e bs else bs) []

def keyT (e : Entry) : String := jsLowerStr e.teacher
def keepT (e : Entry) : Bool := e.teacher != ""
def keyR (e : Entry) : String := jsLowerStr e.room
def keepR (e : Entry) : Bool := e.room != ""

def headTeacher (es : List Entry) : String :=
  match es with
  | e :: _ => e.teacher
  | [] => ""

def headRoom (es : List Entry) : String :=
  match es with
  | e :: _ => e.room
  | [] => ""

/-- The conflicts found at one (day, time) slot, teacher buckets first,
then room buckets, in bucket insertion order. -/
def conflictsOfSlot (day time : String) (slot : List Entry) : List Conflict :=
  let tb := mkBuckets keyT keepT slot
  let rb := mkBuckets keyR keepR slot
  ((tb.filter (fun b => 1 < b.2.length)).map (fun b =>
    { type := "teacher", day := day, time := time,
      value := headTeacher b.2, entries := b.2,
      id := "teacher-" ++ day ++ "-" ++ time ++ "-" ++ headTeacher b.2 })) ++
  ((rb.filter (fun b => 1 < b.2.length)).map (fun b =>
    { type := "room", day := day, time := time,
      value := headRoom b.2, entries := b.2,
      id := "room-" ++ day ++ "-" ++ time ++ "-" ++ headRoom b.2 }))

def slotOf (entries : List Entry) (day time : String) : List Entry :=
  entries.filter (fun e => e.day == day && e.time == time)

/-- One inner iteration of the conflict scan: skip slots with fewer than
two entries, otherwise push that slot's conflicts. -/
def scanSlotStep (entries : List Entry) (day : String) (acc : List Conflict)
    (time : String) : List Conflict :=
  let slot := slotOf entries day time
  if slot.length < 2 then acc else acc ++ conflictsOfSlot day time slot

def scanDayStep (entries : List Entry) (timeSlots : List String)
    (acc : List Conflict) (day : String) : List Conflict :=
  timeSlots.foldl (scanSlotStep entries day) acc

/-- The conflicts useMemo of ConflictPage.js: scan every (day, time) pair
of the configured grid over the schedule's entries. -/
def scanConflicts (entries : List Entry) (days timeSlots : List String) :
    List Conflict :=
  days.foldl (scanDayStep entries timeSlots) []

/-- Counting map used by the badge pass: key to occurrence count, in key
insertion order. -/
def addCount (k : String) : List (String × Nat) → List (String × Nat)
  | [] => [(k, 1)]
  | (k', n) :: cs =>
    if k' == k then (k', n + 1) :: cs else (k', n) :: addCount k cs

def mkCounts (key : Entry → String) (keep : Entry → Bool)
    (slot : List Entry) : List (String × Nat) :=
  slot.foldl (fun cs e => if keep e then addCount (key e) cs else cs) []

def encKey (kind k day time : String) : String :=
  kind ++ "-" ++ k ++ "-" ++ day ++ "-" ++ time

/-- One step of the badge count: bump the total for a bucket with at least
two entries whose dedup key has not been seen. -/
def bumpSeen (kind day time : String) (st : Nat × List String)
    (kv : String × Nat) : Nat × List String :=
  if 1 < kv.2 && !(st.2.contains (encKey kind kv.1 day time)) then
    (st.1 + 1, st.2 ++ [encKey kind kv.1 day time])
  else st

/-- One inner iteration of the badge count: skip slots with fewer than two
entries, otherwise bump the total over the teacher counts and then the
room counts. -/
def countSlotStep (entries : List Entry) (day : String)
    (st : Nat × List String) (time : String) : Nat × List String :=
  let slot := slotOf entries day time
  if slot.length < 2 then st
  else
    (mkCounts keyR keepR slot).foldl (bumpSeen "r" day time)
      ((mkCounts keyT keepT slot).foldl (bumpSeen "t" day time) st)

def countDayStep (entries : List Entry) (timeSlots : List String)
    (st : Nat × List String) (day : String) : Nat × List String :=
  timeSlots.foldl (countSlotStep entries day) st

/-- The conflictCount useMemo of AppContent: count buckets of size at least
two, deduplicated by the kind-value-day-time string across the scan. -/
def conflictCount (entries : List Entry) (days timeSlots : List String) :
    Nat :=
  (days.foldl (countDayStep entries timeSlots)
    ((0 : Nat), ([] : List String))).1

/-! Concrete schedules used to settle the example-based claims. -/

def entryDrX : Entry :=
  { group := "A", day := "Mon", time := "09:00", course := "Calculus",
    teacher := "Dr. X", room := "", subjectType := "lecture", duration := 1 }

def entryDrXB110 : Entry :=
  { group := "B", day := "Mon", time := "09:00", course := "Physics",
    teacher := "Dr. X B110", room := "", subjectType := "lecture",
    duration := 1 }

def entryDrXLower : Entry :=
  { group := "B", day := "Mon", time := "09:00", course := "Physics",
    teacher := "dr. x", room := "", subjectType := "lecture", duration := 1 }

def dirSchedule : SMap :=
  [("A-Mon-09:00", entryDrX),
   ("B-Mon-09:00", entryDrXB110),
   ("C-Mon-09:00",
    { group := "C", day := "Mon", time := "09:00", course := "Algebra",
      teacher := "dr. x b202", room := "", subjectType := "lecture",
      duration := 1 })]

/-- C1: for the slot holding group A with teacher "Dr. X" and group B with
teacher "Dr. X B110", the conflict scan does not yield exactly one teacher
conflict: it yields none, because the scan buckets by the lowercased raw
teacher string and never applies the normalizer. -/
theorem c1_counterexample :
    (scanConflicts [entryDrX, entryDrXB110] ["Mon"] ["09:00"]).length ≠ 1 := by
  decide

/-- C1 (amended): the conflict scan buckets by the lowercased raw teacher
string, so "Dr. X" and "Dr. X B110" fall into different buckets and
produce no conflict; exactly one teacher conflict containing both entries
arises only when the raw strings agree case-insensitively, as with
"Dr. X" and "dr. x". -/
theorem c1_amended :
    scanConflicts [entryDrX, entryDrXB110] ["Mon"] ["09:00"] = [] ∧
    scanConflicts [entryDrX, entryDrXLower] ["Mon"] ["09:00"] =
      [{ type := "teacher", day := "Mon", time := "09:00", value := "Dr. X",
         entries := [entryDrX, entryDrXLower],
         id := "teacher-Mon-09:00-Dr. X" }] := by
  decide

/-- C3: building the directory from teachers "Dr. X B110", "dr. x b202"
and "Dr. X" does not yield the single entry "Dr. X". -/
theorem c3_counterexample : buildTeacherList dirSchedule ≠ ["Dr. X"] := by
  decide

/-- C3 (amended): the directory yields two entries, "Dr. X" and "dr. x":
the normalizer strips the room suffixes but keeps the case of unknown
names, and deduplication compares normalized values case-sensitively. -/
theorem c3_amended : buildTeacherList dirSchedule = ["Dr. X", "dr. x"] := by
  decide

/-- C4: the normalizer is not idempotent: one pass turns "Mr.Bek" into
"Mr. Bek", and a second pass strips " Bek" as a trailing room token
(the trailing-room pattern matches any word starting with B), leaving
"Mr.". -/
theorem c4_counterexample :
    normalizeTeacherName (normalizeTeacherName "Mr.Bek") ≠
      normalizeTeacherName "Mr.Bek" := by
  decide

/-- C4 (amended): idempotence fails in general, but holds on all canonical
table values and on the outputs of the spec's worked examples. -/
theorem c4_amended :
    ((TEACHER_CANONICAL.map (fun p => p.2)) ++
      ["Dr. X", "dr. x", "Dr. Ahmad", "Ms. Asina"]).all
      (fun s => normalizeTeacherName (normalizeTeacherName s) ==
        normalizeTeacherName s) = true := by
  decide

/-- C9: the normalizer maps the spec's worked examples to the stated
outputs. -/
theorem c9_examples :
    normalizeTeacherName "Dr.Ahmad B202 LAB" = "Dr. Ahmad" ∧
    normalizeTeacherName "/Ms.Asina" = "Ms. Asina" := by
  decide

/-! Association-list lemmas about the schedule-map operations. -/

theorem getKey_setKey_self (m : SMap) (k : String) (v : Entry) :
    getKey (setKey m k v) k = some v := by
  unfold getKey setKey
  split
  · rename_i h
    rw [List.find?_map]
    have hpred :
        ((fun p : String × Entry => p.1 == k) ∘
          fun p : String × Entry => if p.1 == k then (k, v) else p) =
        fun p : String × Entry => p.1 == k := by
      funext p
      by_cases hp : p.1 = k
      · simp [hp]
      · simp [hp]
    rw [hpred]
    rcases List.any_eq_true.1 h with ⟨x, hx, hxk⟩
    have hsome : (List.find? (fun p : String × Entry => p.1 == k) m).isSome :=
      List.find?_isSome.2 ⟨x, hx, hxk⟩
    rcases Option.isSome_iff_exists.1 hsome with ⟨q, hq⟩
    have hqk := List.find?_some hq
    have hqe : q.1 = k := by simpa using hqk
    rw [hq]
    simp [hqe]
  · rename_i h
    rw [List.find?_append]
    have hnone : List.find? (fun p : String × Entry => p.1 == k) m = none := by
      rw [List.find?_eq_none]
      intro x hx hc
      exact h (List.any_eq_true.2 ⟨x, hx, hc⟩)
    rw [hnone]
    simp [List.find?_cons]

theorem getKey_setKey_other (m : SMap) (k : String) (v : Entry)
    (k' : String) (h : k' ≠ k) :
    getKey (setKey m k v) k' = getKey m k' := by
  unfold getKey setKey
  split
  · rw [List.find?_map]
    have hpred :
        ((fun p : String × Entry => p.1 == k') ∘
          fun p : String × Entry => if p.1 == k then (k, v) else p) =
        fun p : String × Entry => p.1 == k' := by
      funext p
      by_cases hp : p.1 = k
      · simp [hp, Ne.symm h]
      · simp [hp]
    rw [hpred]
    cases hm : List.find? (fun p : String × Entry => p.1 == k') m with
    | none => simp
    | some q =>
      have hqk := List.find?_some hm
      have hq : q.1 = k' := by simpa using hqk
      have hqne : ¬q.1 = k := by
        rw [hq]
        exact h
      simp [hqne]
  · rw [List.find?_append]
    cases hm : List.find? (fun p : String × Entry => p.1 == k') m with
    | some x => simp [hm]
    | none =>
      have hk : (k == k') = false := by simp [Ne.symm h]
      simp [hm, List.find?_cons, hk]

theorem length_setKey_present (m : SMap) (k : String) (v : Entry)
    (h : m.any (fun p => p.1 == k) = true) :
    (setKey m k v).length = m.length := by
  simp [setKey, h]

theorem any_key_of_getKey_some {m : SMap} {k : String} {v : Entry}
    (h : getKey m k = some v) :
    m.any (fun p => p.1 == k) = true := by
  unfold getKey at h
  rcases Option.map_eq_some'.1 h with ⟨p, hp, hv⟩
  have hpk := List.find?_some hp
  exact List.any_eq_true.2 ⟨p, List.mem_of_find?_eq_some hp, hpk⟩

/-- C8: deleting a key that is not in the schedule map and moving from a
source key that is not in the map are benign no-ops: both are total
functions that return the map unchanged. -/
theorem c8_missing_key_noop :
    ∀ (m : SMap) (g d t fG fD fT tG tD tT : String),
    getKey m (mkKey g d t) = none →
    getKey m (mkKey fG fD fT) = none →
    deleteClass m g d t = m ∧ moveClass m fG fD fT tG tD tT = m := by
  intro m g d t fG fD fT tG tD tT hdel hmove
  constructor
  · unfold deleteClass delKey
    apply List.filter_eq_self.mpr
    intro p hp
    unfold getKey at hdel
    rw [Option.map_eq_none'] at hdel
    rw [List.find?_eq_none] at hdel
    simpa using hdel p hp
  · simp [moveClass, hmove]

/-- C8 witness at a concrete map and missing keys. -/
theorem c8_missing_key_noop_witness :
    deleteClass dirSchedule "B" "Tue" "10:00" = dirSchedule ∧
    moveClass dirSchedule "C" "Wed" "11:00" "A" "Mon" "09:00" = dirSchedule :=
  c8_missing_key_noop dirSchedule "B" "Tue" "10:00" "C" "Wed" "11:00"
    "A" "Mon" "09:00" (by decide) (by decide)

/-- Key-coordinate agreement for every pair in the map. -/
def KeyInv (m : SMap) : Prop := ∀ p ∈ m, p.1 = keyOf p.2

theorem keyInv_setKey {m : SMap} {k : String} {v : Entry}
    (h : KeyInv m) (hk : k = keyOf v) : KeyInv (setKey m k v) := by
  intro p hp
  unfold setKey at hp
  split at hp
  · rcases List.mem_map.1 hp with ⟨q, hq, rfl⟩
    by_cases hqk : (q.1 == k) = true
    · simp only [if_pos hqk]
      exact hk
    · simp only [if_neg hqk]
      exact h q hq
  · rcases List.mem_append.1 hp with h1 | h1
    · exact h p h1
    · have : p = (k, v) := by simpa using h1
      subst this
      exact hk

theorem keyInv_filter {m : SMap} {f : String × Entry → Bool}
    (h : KeyInv m) : KeyInv (m.filter f) :=
  fun p hp => h p (List.mem_filter.1 hp).1

theorem keyInv_applyOp {m : SMap} (h : KeyInv m) (op : Op) :
    KeyInv (applyOp m op) := by
  cases op with
  | upsert g d t cd => exact keyInv_setKey h rfl
  | del g d t => exact keyInv_filter h
  | move fG fD fT tG tD tT =>
    show KeyInv (moveClass m fG fD fT tG tD tT)
    cases hf : getKey m (mkKey fG fD fT) with
    | none =>
      have heq : moveClass m fG fD fT tG tD tT = m := by
        simp [moveClass, hf]
      rw [heq]
      exact h
    | some fd =>
      cases ht : getKey m (mkKey tG tD tT) with
      | none =>
        have heq : moveClass m fG fD fT tG tD tT =
            delKey (setKey m (mkKey tG tD tT)
              { fd with group := tG, day := tD, time := tT })
              (mkKey fG fD fT) := by
          simp [moveClass, hf, ht]
        rw [heq]
        exact keyInv_filter (keyInv_setKey h rfl)
      | some td =>
        have heq : moveClass m fG fD fT tG tD tT =
            setKey (setKey m (mkKey tG tD tT)
              { fd with group := tG, day := tD, time := tT })
              (mkKey fG fD fT)
              { td with group := fG, day := fD, time := fT } := by
          simp [moveClass, hf, ht]
        rw [heq]
        exact keyInv_setKey (keyInv_setKey h rfl) rfl
  | delGroup g => exact keyInv_filter h

theorem keyInv_foldl (ops : List Op) :
    ∀ m : SMap, KeyInv m → KeyInv (ops.foldl applyOp m) := by
  induction ops with
  | nil => intro m h; exact h
  | cons op ops ih =>
    intro m h
    exact ih (applyOp m op) (keyInv_applyOp h op)

/-- C5: after any sequence of mutations starting from the empty map, every
key in the schedule map is the composite built from its own entry's group,
day and time fields. -/
theorem c5_key_invariant :
    ∀ (ops : List Op), ∀ p ∈ runOps ops, p.1 = keyOf p.2 := by
  intro ops
  exact keyInv_foldl ops [] (by intro p hp; simp at hp)

def cdSample : ClassData :=
  { course := "Calculus", teacher := some "Dr. X", room := some "B101",
    subjectType := none, duration := none }

def storedSample : Entry :=
  { group := "A", day := "Mon", time := "09:00", course := "Calculus",
    teacher := "Dr. X", room := "B101", subjectType := "lecture",
    duration := 1 }

/-- C5 witness: the invariant instantiated after one concrete upsert. -/
theorem c5_key_invariant_witness :
    ("A-Mon-09:00", storedSample).1 = keyOf storedSample :=
  c5_key_invariant [Op.upsert "A" "Mon" "09:00" cdSample]
    ("A-Mon-09:00", storedSample) (by decide)

/-- C6: moving between two distinct occupied keys swaps the entries: the
destination holds the former source entry rewritten to the destination
coordinates, the source holds the former destination entry rewritten to
the source coordinates, every other key is untouched, and the map size is
unchanged. -/
theorem c6_move_swap :
    ∀ (m : SMap) (fG fD fT tG tD tT : String) (fd td : Entry),
    getKey m (mkKey fG fD fT) = some fd →
    getKey m (mkKey tG tD tT) = some td →
    mkKey fG fD fT ≠ mkKey tG tD tT →
    getKey (moveClass m fG fD fT tG tD tT) (mkKey tG tD tT) =
      some { fd with group := tG, day := tD, time := tT } ∧
    getKey (moveClass m fG fD fT tG tD tT) (mkKey fG fD fT) =
      some { td with group := fG, day := fD, time := fT } ∧
    (∀ k : String, k ≠ mkKey fG fD fT → k ≠ mkKey tG tD tT →
      getKey (moveClass m fG fD fT tG tD tT) k = getKey m k) ∧
    (moveClass m fG fD fT tG tD tT).length = m.length := by
  intro m fG fD fT tG tD tT fd td hf ht hne
  have hmv : moveClass m fG fD fT tG tD tT =
      setKey (setKey m (mkKey tG tD tT)
        { fd with group := tG, day := tD, time := tT })
        (mkKey fG fD fT)
        { td with group := fG, day := fD, time := fT } := by
    simp [moveClass, hf, ht]
  rw [hmv]
  refine ⟨?_, ?_, ?_, ?_⟩
  · rw [getKey_setKey_other _ _ _ _ (Ne.symm hne)]
    exact getKey_setKey_self _ _ _
  · exact getKey_setKey_self _ _ _
  · intro k h1 h2
    rw [getKey_setKey_other _ _ _ _ h1, getKey_setKey_other _ _ _ _ h2]
  · have hfrom : getKey (setKey m (mkKey tG tD tT)
        { fd with group := tG, day := tD, time := tT })
        (mkKey fG fD fT) = some fd := by
      rw [getKey_setKey_other _ _ _ _ hne]
      exact hf
    rw [length_setKey_present _ _ _ (any_key_of_getKey_some hfrom),
      length_setKey_present _ _ _ (any_key_of_getKey_some ht)]

def swapSchedule : SMap :=
  [("A-Mon-09:00", entryDrX), ("B-Mon-09:00", entryDrXB110)]

/-- C6 witness at a concrete two-entry map, with the other-keys clause
instantiated at an absent third key. -/
theorem c6_move_swap_witness :
    getKey (moveClass swapSchedule "A" "Mon" "09:00" "B" "Mon" "09:00")
      (mkKey "B" "Mon" "09:00") =
      some { entryDrX with group := "B", day := "Mon", time := "09:00" } ∧
    getKey (moveClass swapSchedule "A" "Mon" "09:00" "B" "Mon" "09:00")
      (mkKey "A" "Mon" "09:00") =
      some { entryDrXB110 with group := "A", day := "Mon", time := "09:00" } ∧
    getKey (moveClass swapSchedule "A" "Mon" "09:00" "B" "Mon" "09:00")
      "C-Tue-10:00" = getKey swapSchedule "C-Tue-10:00" ∧
    (moveClass swapSchedule "A" "Mon" "09:00" "B" "Mon" "09:00").length =
      swapSchedule.length := by
  have h := c6_move_swap swapSchedule "A" "Mon" "09:00" "B" "Mon" "09:00"
    entryDrX entryDrXB110 (by decide) (by decide) (by decide)
  exact ⟨h.1, h.2.1, h.2.2.1 "C-Tue-10:00" (by decide) (by decide), h.2.2.2⟩

/-! Every entry reported inside a conflict comes from the scanned entry
list. -/

theorem mem_entries_addToBuckets (k : String) (e : Entry) :
    ∀ (bs : List (String × List Entry)) (b : String × List Entry),
    b ∈ addToBuckets k e bs → ∀ e' ∈ b.2, e' = e ∨ ∃ b' ∈ bs, e' ∈ b'.2 := by
  intro bs
  induction bs with
  | nil =>
    intro b hb e' he'
    simp only [addToBuckets, List.mem_singleton] at hb
    subst hb
    simp only [List.mem_singleton] at he'
    exact Or.inl he'
  | cons a bs ih =>
    intro b hb e' he'
    obtain ⟨k', es⟩ := a
    by_cases hk : (k' == k) = true
    · simp only [addToBuckets, if_pos hk, List.mem_cons] at hb
      rcases hb with hb | hb
      · subst hb
        rcases List.mem_append.1 he' with h1 | h1
        · exact Or.inr ⟨(k', es), List.mem_cons_self _ _, h1⟩
        · exact Or.inl (List.mem_singleton.1 h1)
      · exact Or.inr ⟨b, List.mem_cons_of_mem _ hb, he'⟩
    · simp only [addToBuckets, if_neg hk, List.mem_cons] at hb
      rcases hb with hb | hb
      · subst hb
        exact Or.inr ⟨(k', es), List.mem_cons_self _ _, he'⟩
      · rcases ih b hb e' he' with h | ⟨b', hb', he''⟩
        · exact Or.inl h
        · exact Or.inr ⟨b', List.mem_cons_of_mem _ hb', he''⟩

theorem mem_entries_bucketFold (key : Entry → String) (keep : Entry → Bool)
    (Q : Entry → Prop) :
    ∀ (slot : List Entry) (acc : List (String × List Entry)),
    (∀ b ∈ acc, ∀ e' ∈ b.2, Q e') → (∀ e ∈ slot, Q e) →
    ∀ b ∈ slot.foldl
      (fun bs e => if keep e then addToBuckets (key e) e bs else bs) acc,
    ∀ e' ∈ b.2, Q e' := by
  intro slot
  induction slot with
  | nil =>
    intro acc hacc _ b hb e' he'
    exact hacc b hb e' he'
  | cons e slot ih =>
    intro acc hacc hslot b hb e' he'
    simp only [List.foldl_cons] at hb
    refine ih _ ?_ (fun x hx => hslot x (List.mem_cons_of_mem _ hx)) b hb e' he'
    intro b' hb' e'' he''
    by_cases hk : keep e = true
    · rw [if_pos hk] at hb'
      rcases mem_entries_addToBuckets (key e) e acc b' hb' e'' he'' with
        h | ⟨b'', hb'', he'''⟩
      · rw [h]
        exact hslot e (List.mem_cons_self _ _)
      · exact hacc b'' hb'' e'' he'''
    · rw [if_neg hk] at hb'
      exact hacc b' hb' e'' he''

theorem mem_entries_mkBuckets (key : Entry → String) (keep : Entry → Bool)
    (slot : List Entry) (b : String × List Entry)
    (hb : b ∈ mkBuckets key keep slot) : ∀ e' ∈ b.2, e' ∈ slot :=
  mem_entries_bucketFold key keep (fun e => e ∈ slot) slot []
    (by intro b' hb'; simp at hb') (fun e he => he) b hb

theorem mem_entries_conflictsOfSlot {day time : String} {slot : List Entry}
    {c : Conflict} (hc : c ∈ conflictsOfSlot day time slot) :
    ∀ e ∈ c.entries, e ∈ slot := by
  unfold conflictsOfSlot at hc
  rcases List.mem_append.1 hc with h | h
  · rcases List.mem_map.1 h with ⟨b, hb, rfl⟩
    intro e he
    exact mem_entries_mkBuckets keyT keepT slot b (List.mem_filter.1 hb).1 e he
  · rcases List.mem_map.1 h with ⟨b, hb, rfl⟩
    intro e he
    exact mem_entries_mkBuckets keyR keepR slot b (List.mem_filter.1 hb).1 e he

theorem mem_scanSlotStep {entries : List Entry} {day time : String}
    {acc : List Conflict} {c : Conflict}
    (hc : c ∈ scanSlotStep entries day acc time) :
    c ∈ acc ∨ c ∈ conflictsOfSlot day time (slotOf entries day time) := by
  simp only [scanSlotStep] at hc
  split at hc
  · exact Or.inl hc
  · exact (List.mem_append.1 hc).imp id id

theorem mem_scan_inner (entries : List Entry) (day : String)
    (R : Conflict → Prop)
    (hnew : ∀ (time : String) (c : Conflict),
      c ∈ conflictsOfSlot day time (slotOf entries day time) → R c) :
    ∀ (ts : List String) (acc : List Conflict), (∀ c ∈ acc, R c) →
    ∀ c ∈ ts.foldl (scanSlotStep entries day) acc, R c := by
  intro ts
  induction ts with
  | nil =>
    intro acc hacc c hc
    exact hacc c hc
  | cons t ts ih =>
    intro acc hacc c hc
    simp only [List.foldl_cons] at hc
    refine ih _ ?_ c hc
    intro c' hc'
    rcases mem_scanSlotStep hc' with h | h
    · exact hacc c' h
    · exact hnew t c' h

theorem mem_scan_entries (entries : List Entry) (days ts : List String) :
    ∀ c ∈ scanConflicts entries days ts, ∀ e ∈ c.entries, e ∈ entries := by
  unfold scanConflicts
  suffices haux : ∀ (ds : List String) (acc : List Conflict),
      (∀ c ∈ acc, ∀ e ∈ c.entries, e ∈ entries) →
      ∀ c ∈ ds.foldl (scanDayStep entries ts) acc,
      ∀ e ∈ c.entries, e ∈ entries by
    intro c hc
    exact haux days [] (by intro c' hc'; simp at hc') c hc
  intro ds
  induction ds with
  | nil =>
    intro acc hacc c hc
    exact hacc c hc
  | cons d ds ih =>
    intro acc hacc c hc
    simp only [List.foldl_cons] at hc
    refine ih _ ?_ c hc
    unfold scanDayStep
    refine mem_scan_inner entries d _ ?_ ts acc hacc
    intro t c' hc' e he
    have hslot := mem_entries_conflictsOfSlot hc' e he
    exact (List.mem_filter.1 hslot).1

/-- C7: deleteGroup removes the group from the group list, removes exactly
the entries of that group from the schedule map, and no conflict produced
by a subsequent scan references the deleted group. -/
theorem c7_delete_group :
    ∀ (m : SMap) (groups : List String) (G : String) (days ts : List String),
    G ∉ deleteGroupList groups G ∧
    (∀ p : String × Entry,
      p ∈ deleteGroupMap m G ↔ p ∈ m ∧ p.2.group ≠ G) ∧
    (∀ c ∈ scanConflicts ((deleteGroupMap m G).map (fun p => p.2)) days ts,
      ∀ e ∈ c.entries, e.group ≠ G) := by
  intro m groups G days ts
  refine ⟨?_, ?_, ?_⟩
  · intro hG
    have := (List.mem_filter.1 hG).2
    simp at this
  · intro p
    constructor
    · intro hp
      have h := List.mem_filter.1 hp
      exact ⟨h.1, by simpa using h.2⟩
    · intro h
      exact List.mem_filter.2 ⟨h.1, by simpa using h.2⟩
  · intro c hc e he
    have hmem := mem_scan_entries _ days ts c hc e he
    rcases List.mem_map.1 hmem with ⟨p, hp, rfl⟩
    have := (List.mem_filter.1 hp).2
    simpa using this

def e7B : Entry :=
  { group := "B", day := "Mon", time := "09:00", course := "Physics",
    teacher := "Dr. S", room := "", subjectType := "lecture", duration := 1 }

def e7C : Entry :=
  { group := "C", day := "Mon", time := "09:00", course := "Algebra",
    teacher := "dr. s", room := "", subjectType := "lecture", duration := 1 }

def sched7 : SMap :=
  [("A-Mon-09:00", entryDrX), ("B-Mon-09:00", e7B), ("C-Mon-09:00", e7C)]

/-- C7 witness: concrete deletion of group A, with the conflict clause
instantiated at the surviving teacher conflict between groups B and C. -/
theorem c7_delete_group_witness :
    "A" ∉ deleteGroupList ["A", "B", "C"] "A" ∧
    (("B-Mon-09:00", e7B) ∈ deleteGroupMap sched7 "A" ↔
      ("B-Mon-09:00", e7B) ∈ sched7 ∧ e7B.group ≠ "A") ∧
    e7B.group ≠ "A" := by
  have h := c7_delete_group sched7 ["A", "B", "C"] "A" ["Mon"] ["09:00"]
  refine ⟨h.1, h.2.1 ("B-Mon-09:00", e7B), ?_⟩
  refine h.2.2
    { type := "teacher", day := "Mon", time := "09:00", value := "Dr. S",
      entries := [e7B, e7C], id := "teacher-Mon-09:00-Dr. S" }
    (by decide) e7B (by decide)

/-! Whitespace cleanliness of the normalizer output. -/

/-- No two adjacent space characters. -/
def noDoubleSpaceB : List Char → Bool
  | [] => true
  | [_] => true
  | a :: b :: rest => !(a == ' ' && b == ' ') && noDoubleSpaceB (b :: rest)

/-- The output is trimmed and contains no run of two or more consecutive
spaces. -/
def WsClean (s : String) : Prop :=
  (s.data.head?).all (fun c => !isJsWs c) = true ∧
  (s.data.getLast?).all (fun c => !isJsWs c) = true ∧
  noDoubleSpaceB s.data = true

/-- No two adjacent whitespace characters. -/
def RW (a b : Char) : Prop := ¬(isJsWs a = true ∧ isJsWs b = true)

instance (s : String) : Decidable (WsClean s) := by
  unfold WsClean
  infer_instance

theorem wsClean_empty : WsClean "" := by decide

theorem wsClean_table : ∀ p ∈ TEACHER_CANONICAL, WsClean p.2 := by decide

theorem collapseAux_cons_nonws (b : Bool) (d : Char) (ds : List Char)
    (h : isJsWs d = false) :
    collapseAux b (d :: ds) = d :: collapseAux false ds := by
  simp [collapseAux, h]

theorem head_all_collapseAux_true (l : List Char) :
    ((collapseAux true l).head?).all (fun c => !isJsWs c) = true := by
  induction l with
  | nil => rfl
  | cons c cs ih =>
    by_cases h : isJsWs c = true
    · simpa [collapseAux, h] using ih
    · rw [collapseAux_cons_nonws true c cs (by simpa using h)]
      simp [h]

theorem chainNW_collapseAux (l : List Char) :
    ∀ b : Bool, List.Chain' RW (collapseAux b l) := by
  induction l with
  | nil =>
    intro b
    simp [collapseAux]
  | cons c cs ih =>
    intro b
    by_cases h : isJsWs c = true
    · cases b with
      | true => simpa [collapseAux, h] using ih true

      | false =>
        cases cs with
        | nil => simp [collapseAux, h]
        | cons d ds =>
          by_cases hd : isJsWs d = true
          · rw [show collapseAux false (c :: d :: ds) =
                ' ' :: collapseAux true (d :: ds) from by
erw [collapseAux]
simp [h, hd]]
            rw [List.chain'_cons']
            refine ⟨?_, ih true⟩
            intro y hy hcon
            have hall := head_all_collapseAux_true (d :: ds)
            rw [Option.mem_def] at hy
            rw [hy] at hall
            simp at hall
            rw [hall] at hcon
            exact Bool.false_ne_true hcon.2
          · rw [show collapseAux false (c :: d :: ds) =
                c :: collapseAux false (d :: ds) from by
erw [collapseAux]
simp [h, hd]]
            rw [List.chain'_cons']
            refine ⟨?_, ih false⟩
            intro y hy hcon
            rw [collapseAux_cons_nonws false d ds (by simpa using hd)] at hy
            simp at hy
            refine hd ?_
            rw [hy]
            exact hcon.2
    · rw [collapseAux_cons_nonws b c cs (by simpa using h)]
      rw [List.chain'_cons']
      refine ⟨?_, ih false⟩
      intro y hy hcon
      exact h hcon.1

theorem chain'_dropWhile {α : Type} {R : α → α → Prop} (p : α → Bool) :
    ∀ {l : List α}, List.Chain' R l → List.Chain' R (l.dropWhile p) := by
  intro l
  induction l with
  | nil =>
    intro h
    simp
  | cons a l ih =>
    intro h
    by_cases hp : p a = true
    · rw [List.dropWhile_cons_of_pos hp]
      exact ih h.tail
    · rw [List.dropWhile_cons_of_neg hp]
      exact h

theorem chain'_reverse_symm {l : List Char} (h : List.Chain' RW l) :
    List.Chain' RW l.reverse := by
  rw [List.chain'_reverse]
  refine h.imp ?_
  intro a b hab hcon
  exact hab ⟨hcon.2, hcon.1⟩

theorem getLast?_dropWhile_of_ne_nil {α : Type} (p : α → Bool) :
    ∀ l : List α, l.dropWhile p ≠ [] →
    (l.dropWhile p).getLast? = l.getLast? := by
  intro l
  induction l with
  | nil =>
    intro h
    exact absurd rfl h
  | cons a l ih =>
    intro h
    by_cases hp : p a = true
    · rw [List.dropWhile_cons_of_pos hp] at h ⊢
      rw [ih h]
      have hl : l ≠ [] := by
        intro he
        rw [he] at h
        exact h rfl
      cases l with
      | nil => exact absurd rfl hl
      | cons b l => rw [List.getLast?_cons_cons]
    · rw [List.dropWhile_cons_of_neg hp]

theorem head?_dropWhile_all {α : Type} (p : α → Bool) (l : List α) :
    ((l.dropWhile p).head?).all (fun c => !p c) = true := by
  induction l with
  | nil => rfl
  | cons a l ih =>
    by_cases hp : p a = true
    · rw [List.dropWhile_cons_of_pos hp]
      exact ih
    · rw [List.dropWhile_cons_of_neg hp]
      simp [hp]

theorem trim_head_all (x : List Char) :
    ((jsTrim x).head?).all (fun c => !isJsWs c) = true := by
  unfold jsTrim
  rw [List.head?_reverse]
  by_cases hv : (trimLead x).reverse.dropWhile isJsWs = []
  · rw [hv]
    rfl
  · rw [getLast?_dropWhile_of_ne_nil _ _ hv, List.getLast?_reverse]
    exact head?_dropWhile_all isJsWs x

theorem trim_last_all (x : List Char) :
    ((jsTrim x).getLast?).all (fun c => !isJsWs c) = true := by
  unfold jsTrim
  rw [List.getLast?_reverse]
  exact head?_dropWhile_all isJsWs _

theorem chainNW_trim {x : List Char} (h : List.Chain' RW x) :
    List.Chain' RW (jsTrim x) := by
  unfold jsTrim trimLead
  exact chain'_reverse_symm (chain'_dropWhile _
    (chain'_reverse_symm (chain'_dropWhile _ h)))

theorem ndsp_of_chain :
    ∀ l : List Char, List.Chain' RW l → noDoubleSpaceB l = true
  | [], _ => rfl
  | [_], _ => rfl
  | a :: b :: rest, h => by
    rw [List.chain'_cons] at h
    have h1 : (a == ' ' && b == ' ') = false := by
      by_cases hab : (a == ' ' && b == ' ') = true
      · exfalso
        rw [Bool.and_eq_true] at hab
        have ha : a = ' ' := by simpa using hab.1
        have hb : b = ' ' := by simpa using hab.2
        exact h.1 ⟨by rw [ha]; decide, by rw [hb]; decide⟩
      · exact Bool.eq_false_iff.2 hab
    simp only [noDoubleSpaceB, h1]
    simpa using ndsp_of_chain (b :: rest) h.2

theorem wsClean_trim_collapse (l : List Char) :
    WsClean ⟨jsTrim (collapseWs l)⟩ :=
  ⟨trim_head_all _, trim_last_all _,
    ndsp_of_chain _ (chainNW_trim (chainNW_collapseAux l false))⟩

/-- C10: for every input, the normalizer output is whitespace-normalized:
no leading or trailing whitespace and no two adjacent spaces. The final
pipeline steps collapse runs of whitespace and trim, and every
canonical-table value is itself clean. -/
theorem c10_whitespace_clean (raw : String) :
    WsClean (normalizeTeacherName raw) := by
  unfold normalizeTeacherName
  split
  · exact wsClean_empty
  · simp only [finalize]
    split
    · exact wsClean_empty
    · split
      · exact wsClean_empty
      · split
        · exact wsClean_empty
        · split
          · rename_i v hv
            rcases Option.map_eq_some'.1 hv with ⟨p, hp, hpv⟩
            have hmem := List.mem_of_find?_eq_some hp
            rw [← hpv]
            exact wsClean_table p hmem
          · exact wsClean_trim_collapse _

/-! The badge count versus the conflict scan. -/

/-- The (day, time) grid the two passes iterate, day-major. -/
def gridPairs (days ts : List String) : List (String × String) :=
  days.flatMap (fun d => ts.map (fun t => (d, t)))

/-- Keys of buckets of size at least two in one counting map. -/
def qualKeys (key : Entry → String) (keep : Entry → Bool)
    (slot : List Entry) : List String :=
  ((mkCounts key keep slot).filter (fun kv => 1 < kv.2)).map Prod.fst

/-- The dedup strings the badge count inserts at one slot, teacher kind
first. -/
def qualEnc (entries : List Entry) (day time : String) : List String :=
  let slot := slotOf entries day time
  if slot.length < 2 then []
  else
    (qualKeys keyT keepT slot).map (fun k => encKey "t" k day time) ++
    (qualKeys keyR keepR slot).map (fun k => encKey "r" k day time)

/-- All (kind, lowercased value, day, time) quadruples that can feed the
dedup-string builder. -/
def quadPool (entries : List Entry) (days ts : List String) :
    List (String × String × String × String) :=
  (["t", "r"] : List String).flatMap (fun kind =>
    (entries.map keyT ++ entries.map keyR).flatMap (fun k =>
      days.flatMap (fun d => ts.map (fun t => (kind, k, d, t)))))

def encQuad (q : String × String × String × String) : String :=
  encKey q.1 q.2.1 q.2.2.1 q.2.2.2

/-- Entries exhibiting a dedup-string collision: the teacher "y-x" on day
"d" and the teacher "y" on day "x-d" both encode to "t-y-x-d-t". -/
def clashA1 : Entry :=
  { group := "A", day := "d", time := "t", course := "c", teacher := "y-x",
    room := "", subjectType := "lecture", duration := 1 }

def clashA2 : Entry :=
  { group := "B", day := "d", time := "t", course := "c", teacher := "y-x",
    room := "", subjectType := "lecture", duration := 1 }

def clashB1 : Entry :=
  { group := "A", day := "x-d", time := "t", course := "c", teacher := "y",
    room := "", subjectType := "lecture", duration := 1 }

def clashB2 : Entry :=
  { group := "B", day := "x-d", time := "t", course := "c", teacher := "y",
    room := "", subjectType := "lecture", duration := 1 }

def clashEntries : List Entry := [clashA1, clashA2, clashB1, clashB2]

/-- C2: the counting pass does not always equal the scan length: with days
"d" and "x-d", the dedup strings of the two distinct teacher conflicts
collide ("t-y-x-d-t"), so the badge counts one while the scan reports
two. -/
theorem c2_counterexample :
    conflictCount clashEntries ["d", "x-d"] ["t"] ≠
      (scanConflicts clashEntries ["d", "x-d"] ["t"]).length := by
  decide

theorem addCount_eq_map_addToBuckets (k : String) (e : Entry) :
    ∀ bs : List (String × List Entry),
    addCount k (bs.map (fun b => (b.1, b.2.length))) =
      (addToBuckets k e bs).map (fun b => (b.1, b.2.length)) := by
  intro bs
  induction bs with
  | nil => rfl
  | cons a bs ih =>
    obtain ⟨k', es⟩ := a
    by_cases h : (k' == k) = true
    · simp [addCount, addToBuckets, h]
    · simp only [List.map_cons, addCount, addToBuckets, if_neg h]
      rw [ih]

theorem counts_fold_eq (key : Entry → String) (keep : Entry → Bool) :
    ∀ (slot : List Entry) (acc : List (String × List Entry)),
    slot.foldl (fun cs e => if keep e then addCount (key e) cs else cs)
      (acc.map (fun b => (b.1, b.2.length))) =
    (slot.foldl (fun bs e => if keep e then addToBuckets (key e) e bs else bs)
      acc).map (fun b => (b.1, b.2.length)) := by
  intro slot
  induction slot with
  | nil => intro acc; rfl
  | cons e slot ih =>
    intro acc
    simp only [List.foldl_cons]
    by_cases h : keep e = true
    · rw [if_pos h, if_pos h, addCount_eq_map_addToBuckets (key e) e acc]
      exact ih _
    · rw [if_neg h, if_neg h]
      exact ih acc

theorem mkCounts_eq_map_mkBuckets (key : Entry → String) (keep : Entry → Bool)
    (slot : List Entry) :
    mkCounts key keep slot =
      (mkBuckets key keep slot).map (fun b => (b.1, b.2.length)) :=
  counts_fold_eq key keep slot []

theorem keys_addCount (k : String) :
    ∀ cs : List (String × Nat),
    (addCount k cs).map Prod.fst =
      if k ∈ cs.map Prod.fst then cs.map Prod.fst
      else cs.map Prod.fst ++ [k] := by
  intro cs
  induction cs with
  | nil => simp [addCount]
  | cons a cs ih =>
    obtain ⟨k', n⟩ := a
    by_cases h : (k' == k) = true
    · have he : k' = k := by simpa using h
      subst he
      simp [addCount, h]
    · have he : k' ≠ k := by simpa using h
      simp only [addCount, if_neg h, List.map_cons, ih]
      by_cases hm : k ∈ cs.map Prod.fst
      · rw [if_pos hm, if_pos (List.mem_cons_of_mem _ hm)]
      · rw [if_neg hm, if_neg ?_]
        · simp
        · intro hc
          rcases List.mem_cons.1 hc with hc | hc
          · exact he (hc.symm)
          · exact hm hc

theorem keys_countsFold_nodup (key : Entry → String) (keep : Entry → Bool) :
    ∀ (slot : List Entry) (acc : List (String × Nat)),
    (acc.map Prod.fst).Nodup →
    ((slot.foldl (fun cs e => if keep e then addCount (key e) cs else cs)
      acc).map Prod.fst).Nodup := by
  intro slot
  induction slot with
  | nil =>
    intro acc hacc
    exact hacc
  | cons e slot ih =>
    intro acc hacc
    simp only [List.foldl_cons]
    by_cases h : keep e = true
    · rw [if_pos h]
      refine ih _ ?_
      rw [keys_addCount]
      split
      · exact hacc
      · rename_i hnm
        rw [List.nodup_append]
        refine ⟨hacc, List.nodup_singleton _, ?_⟩
        intro x hx hx1
        rw [List.mem_singleton.1 hx1] at hx
        exact hnm hx
    · rw [if_neg h]
      exact ih acc hacc

theorem mem_keys_countsFold (key : Entry → String) (keep : Entry → Bool) :
    ∀ (slot : List Entry) (acc : List (String × Nat)) (k : String),
    k ∈ ((slot.foldl (fun cs e => if keep e then addCount (key e) cs else cs)
      acc).map Prod.fst) →
    k ∈ acc.map Prod.fst ∨ ∃ e ∈ slot, keep e = true ∧ key e = k := by
  intro slot
  induction slot with
  | nil =>
    intro acc k hk
    exact Or.inl hk
  | cons e slot ih =>
    intro acc k hk
    simp only [List.foldl_cons] at hk
    by_cases h : keep e = true
    · rw [if_pos h] at hk
      rcases ih _ k hk with hin | ⟨e', he', hkeep, hkey⟩
      · rw [keys_addCount] at hin
        split at hin
        · exact Or.inl hin
        · rcases List.mem_append.1 hin with hin | hin
          · exact Or.inl hin
          · refine Or.inr ⟨e, List.mem_cons_self _ _, h, ?_⟩
            exact (List.mem_singleton.1 hin).symm
      · exact Or.inr ⟨e', List.mem_cons_of_mem _ he', hkeep, hkey⟩
    · rw [if_neg h] at hk
      rcases ih _ k hk with hin | ⟨e', he', hkeep, hkey⟩
      · exact Or.inl hin
      · exact Or.inr ⟨e', List.mem_cons_of_mem _ he', hkeep, hkey⟩

theorem qualKeys_nodup (key : Entry → String) (keep : Entry → Bool)
    (slot : List Entry) : (qualKeys key keep slot).Nodup := by
  have hsub : ((mkCounts key keep slot).filter
      (fun kv => 1 < kv.2)).map Prod.fst |>.Sublist
      ((mkCounts key keep slot).map Prod.fst) :=
    (List.filter_sublist _).map Prod.fst
  exact hsub.nodup (keys_countsFold_nodup key keep slot [] (by simp))

theorem mem_qualKeys {key : Entry → String} {keep : Entry → Bool}
    {slot : List Entry} {k : String} (h : k ∈ qualKeys key keep slot) :
    ∃ e ∈ slot, keep e = true ∧ key e = k := by
  unfold qualKeys at h
  rcases List.mem_map.1 h with ⟨kv, hkv, rfl⟩
  have hmem : kv ∈ mkCounts key keep slot := (List.mem_filter.1 hkv).1
  have hk : kv.1 ∈ (mkCounts key keep slot).map Prod.fst :=
    List.mem_map_of_mem _ hmem
  rcases mem_keys_countsFold key keep slot [] kv.1 hk with hin | h
  · simp at hin
  · exact h

theorem contains_eq_false_of_not_mem {l : List String} {a : String}
    (h : a ∉ l) : l.contains a = false := by
  cases h2 : l.contains a with
  | false => rfl
  | true =>
    exfalso
    rw [List.contains_eq_any_beq] at h2
    rcases List.any_eq_true.1 h2 with ⟨x, hx, hax⟩
    refine h ?_
    rw [eq_of_beq hax]
    exact hx

theorem bump_fold (kind day time : String) :
    ∀ (cs : List (String × Nat)) (n : Nat) (seen : List String),
    (∀ kv ∈ cs.filter (fun kv => 1 < kv.2),
      encKey kind kv.1 day time ∉ seen) →
    ((cs.filter (fun kv => 1 < kv.2)).map
      (fun kv => encKey kind kv.1 day time)).Nodup →
    cs.foldl (bumpSeen kind day time) (n, seen) =
      (n + (cs.filter (fun kv => 1 < kv.2)).length,
       seen ++ (cs.filter (fun kv => 1 < kv.2)).map
         (fun kv => encKey kind kv.1 day time)) := by
  intro cs
  induction cs with
  | nil =>
    intro n seen _ _
    simp
  | cons kv cs ih =>
    intro n seen hnot hnd
    by_cases hq : (1 : Nat) < kv.2
    · have hfil : (kv :: cs).filter (fun kv => 1 < kv.2) =
          kv :: cs.filter (fun kv => 1 < kv.2) :=
        List.filter_cons_of_pos (by simpa using hq)
      rw [hfil] at hnot hnd
      have hmemf : encKey kind kv.1 day time ∉ seen :=
        hnot kv (List.mem_cons_self _ _)
      have hstep : bumpSeen kind day time (n, seen) kv =
          (n + 1, seen ++ [encKey kind kv.1 day time]) := by
        unfold bumpSeen
        rw [if_pos]
        rw [Bool.and_eq_true]
        refine ⟨by simpa using hq, ?_⟩
        rw [contains_eq_false_of_not_mem hmemf]
        rfl
      rw [List.foldl_cons, hstep, ih]
      · rw [hfil]
        simp only [List.length_cons, List.map_cons]
        rw [List.append_assoc]
        simp only [List.singleton_append, Prod.mk.injEq]
        exact ⟨by omega, trivial⟩
      · intro kv' hkv'
        intro hc
        rcases List.mem_append.1 hc with hc | hc
        · exact hnot kv' (List.mem_cons_of_mem _ hkv') hc
        · rw [List.mem_singleton] at hc
          rw [List.map_cons] at hnd
          rcases List.nodup_cons.1 hnd with ⟨hh, _⟩
          exact hh (hc ▸ List.mem_map_of_mem _ hkv')
      · rw [List.map_cons] at hnd
        exact (List.nodup_cons.1 hnd).2
    · have hfil : (kv :: cs).filter (fun kv => 1 < kv.2) =
          cs.filter (fun kv => 1 < kv.2) :=
        List.filter_cons_of_neg (by simpa using hq)
      rw [hfil] at hnot hnd
      have hstep : bumpSeen kind day time (n, seen) kv = (n, seen) := by
        unfold bumpSeen
        rw [if_neg]
        intro hc
        rw [Bool.and_eq_true] at hc
        exact hq (by simpa using hc.1)
      rw [List.foldl_cons, hstep, ih n seen hnot hnd, hfil]

theorem length_filter_counts (key : Entry → String) (keep : Entry → Bool)
    (slot : List Entry) :
    ((mkCounts key keep slot).filter (fun kv => 1 < kv.2)).length =
      ((mkBuckets key keep slot).filter (fun b => 1 < b.2.length)).length := by
  rw [mkCounts_eq_map_mkBuckets, List.filter_map, List.length_map]
  rfl

theorem length_conflictsOfSlot (day time : String) (slot : List Entry) :
    (conflictsOfSlot day time slot).length =
      ((mkCounts keyT keepT slot).filter (fun kv => 1 < kv.2)).length +
      ((mkCounts keyR keepR slot).filter (fun kv => 1 < kv.2)).length := by
  unfold conflictsOfSlot
  rw [List.length_append, List.length_map, List.length_map,
    length_filter_counts, length_filter_counts]

theorem countSlotStep_char (entries : List Entry) (day time : String)
    (n : Nat) (seen : List String)
    (hnd : (qualEnc entries day time).Nodup)
    (hdisj : ∀ x ∈ qualEnc entries day time, x ∉ seen) :
    countSlotStep entries day (n, seen) time =
      (n + (qualEnc entries day time).length,
       seen ++ qualEnc entries day time) := by
  by_cases hlen : (slotOf entries day time).length < 2
  · simp [countSlotStep, qualEnc, hlen]
  · have hq : qualEnc entries day time =
        ((mkCounts keyT keepT (slotOf entries day time)).filter
          (fun kv => 1 < kv.2)).map
            (fun kv => encKey "t" kv.1 day time) ++
        ((mkCounts keyR keepR (slotOf entries day time)).filter
          (fun kv => 1 < kv.2)).map
            (fun kv => encKey "r" kv.1 day time) := by
      unfold qualEnc qualKeys
      rw [if_neg hlen, List.map_map, List.map_map]
      rfl
    rw [hq] at hnd hdisj ⊢
    rcases List.nodup_append.1 hnd with ⟨hndT, hndR, hdisjTR⟩
    have hstep : countSlotStep entries day (n, seen) time =
        (mkCounts keyR keepR (slotOf entries day time)).foldl
          (bumpSeen "r" day time)
          ((mkCounts keyT keepT (slotOf entries day time)).foldl
            (bumpSeen "t" day time) (n, seen)) := by
      simp [countSlotStep, hlen]
    rw [hstep]
    rw [bump_fold "t" day time _ n seen
      (fun kv hkv hc => hdisj _ (List.mem_append_left _
        (List.mem_map_of_mem _ hkv)) hc) hndT]
    rw [bump_fold "r" day time _ _ _
      (fun kv hkv hc => ?_) hndR]
    · rw [List.length_append, List.append_assoc]
      simp only [Prod.mk.injEq, List.length_map]
      refine ⟨by omega, ?_⟩
      try rfl
      try trivial
    · rcases List.mem_append.1 hc with hc | hc
      · exact hdisj _ (List.mem_append_right _
          (List.mem_map_of_mem _ hkv)) hc
      · exact hdisjTR hc (List.mem_map_of_mem _ hkv)

theorem foldl_nested {γ : Type} (g : γ → String → String → γ)
    (days ts : List String) :
    ∀ init : γ,
    days.foldl (fun st d => ts.foldl (fun st t => g st d t) st) init =
      (gridPairs days ts).foldl (fun st p => g st p.1 p.2) init := by
  induction days with
  | nil => intro init; rfl
  | cons d days ih =>
    intro init
    simp only [gridPairs, List.flatMap_cons, List.foldl_cons,
      List.foldl_append, List.foldl_map]
    exact ih _

theorem count_fold_pairs (entries : List Entry) :
    ∀ (ps : List (String × String)) (n : Nat) (seen : List String),
    (ps.flatMap (fun p => qualEnc entries p.1 p.2)).Nodup →
    (∀ x ∈ ps.flatMap (fun p => qualEnc entries p.1 p.2), x ∉ seen) →
    ps.foldl (fun st p => countSlotStep entries p.1 st p.2) (n, seen) =
      (n + (ps.flatMap (fun p => qualEnc entries p.1 p.2)).length,
       seen ++ ps.flatMap (fun p => qualEnc entries p.1 p.2)) := by
  intro ps
  induction ps with
  | nil =>
    intro n seen _ _
    simp
  | cons p ps ih =>
    intro n seen hnd hnotin
    rw [List.flatMap_cons] at hnd hnotin ⊢
    rcases List.nodup_append.1 hnd with ⟨hndp, hndr, hdisj⟩
    rw [List.foldl_cons,
      countSlotStep_char entries p.1 p.2 n seen hndp
        (fun x hx hc => hnotin x (List.mem_append_left _ hx) hc),
      ih _ _ hndr ?_]
    · rw [List.length_append, List.append_assoc]
      simp only [Prod.mk.injEq]
      refine ⟨by omega, ?_⟩
      try rfl
      try trivial
    · intro x hx hc
      rcases List.mem_append.1 hc with hc | hc
      · exact hnotin x (List.mem_append_right _ hx) hc
      · exact hdisj hc hx

theorem length_scanSlotStep (entries : List Entry) (day time : String)
    (acc : List Conflict) :
    (scanSlotStep entries day acc time).length =
      acc.length + (qualEnc entries day time).length := by
  by_cases hlen : (slotOf entries day time).length < 2
  · simp [scanSlotStep, qualEnc, hlen]
  · simp only [scanSlotStep, qualEnc, if_neg hlen, List.length_append,
      List.length_map, length_conflictsOfSlot]
    unfold qualKeys
    simp [List.length_map]

theorem scan_fold_pairs (entries : List Entry) :
    ∀ (ps : List (String × String)) (acc : List Conflict),
    (ps.foldl (fun acc p => scanSlotStep entries p.1 acc p.2) acc).length =
      acc.length + (ps.flatMap (fun p => qualEnc entries p.1 p.2)).length := by
  intro ps
  induction ps with
  | nil =>
    intro acc
    simp
  | cons p ps ih =>
    intro acc
    rw [List.foldl_cons, ih, length_scanSlotStep, List.flatMap_cons,
      List.length_append]
    omega

theorem quad_mem_pool {entries : List Entry} {days ts : List String}
    {kind k day time : String}
    (hkind : kind = "t" ∨ kind = "r")
    (hk : k ∈ entries.map keyT ++ entries.map keyR)
    (hd : day ∈ days) (ht : time ∈ ts) :
    (kind, k, day, time) ∈ quadPool entries days ts := by
  unfold quadPool
  rw [List.mem_flatMap]
  refine ⟨kind, ?_, ?_⟩
  · rcases hkind with h | h
    · rw [h]; exact List.mem_cons_self _ _
    · rw [h]; exact List.mem_cons_of_mem _ (List.mem_cons_self _ _)
  · rw [List.mem_flatMap]
    refine ⟨k, hk, ?_⟩
    rw [List.mem_flatMap]
    exact ⟨day, hd, List.mem_map_of_mem _ ht⟩

theorem qualKeyT_pool {entries : List Entry} {day time k : String}
    (h : k ∈ qualKeys keyT keepT (slotOf entries day time)) :
    k ∈ entries.map keyT ++ entries.map keyR := by
  rcases mem_qualKeys h with ⟨e, he, _, hk⟩
  refine List.mem_append_left _ ?_
  rw [← hk]
  exact List.mem_map_of_mem _ (List.mem_filter.1 he).1

theorem qualKeyR_pool {entries : List Entry} {day time k : String}
    (h : k ∈ qualKeys keyR keepR (slotOf entries day time)) :
    k ∈ entries.map keyT ++ entries.map keyR := by
  rcases mem_qualKeys h with ⟨e, he, _, hk⟩
  refine List.mem_append_right _ ?_
  rw [← hk]
  exact List.mem_map_of_mem _ (List.mem_filter.1 he).1

theorem mem_qualEnc_quad {entries : List Entry} {days ts : List String}
    {day time x : String} (hd : day ∈ days) (ht : time ∈ ts)
    (hx : x ∈ qualEnc entries day time) :
    ∃ q ∈ quadPool entries days ts,
      x = encQuad q ∧ q.2.2.1 = day ∧ q.2.2.2 = time := by
  simp only [qualEnc] at hx
  split at hx
  · simp at hx
  · rcases List.mem_append.1 hx with hx | hx
    · rcases List.mem_map.1 hx with ⟨k, hk, rfl⟩
      exact ⟨("t", k, day, time),
        quad_mem_pool (Or.inl rfl) (qualKeyT_pool hk) hd ht, rfl, rfl, rfl⟩
    · rcases List.mem_map.1 hx with ⟨k, hk, rfl⟩
      exact ⟨("r", k, day, time),
        quad_mem_pool (Or.inr rfl) (qualKeyR_pool hk) hd ht, rfl, rfl, rfl⟩

theorem qualEnc_nodup_single {entries : List Entry} {days ts : List String}
    {day time : String}
    (h3 : ∀ q1 ∈ quadPool entries days ts, ∀ q2 ∈ quadPool entries days ts,
      encQuad q1 = encQuad q2 → q1 = q2)
    (hd : day ∈ days) (ht : time ∈ ts) :
    (qualEnc entries day time).Nodup := by
  simp only [qualEnc]
  split
  · exact List.nodup_nil
  · rw [List.nodup_append]
    refine ⟨?_, ?_, ?_⟩
    · refine List.Nodup.map_on ?_ (qualKeys_nodup keyT keepT _)
      intro k1 hk1 k2 hk2 heq
      have h := h3 ("t", k1, day, time)
        (quad_mem_pool (Or.inl rfl) (qualKeyT_pool hk1) hd ht)
        ("t", k2, day, time)
        (quad_mem_pool (Or.inl rfl) (qualKeyT_pool hk2) hd ht) heq
      exact congrArg (fun q => q.2.1) h
    · refine List.Nodup.map_on ?_ (qualKeys_nodup keyR keepR _)
      intro k1 hk1 k2 hk2 heq
      have h := h3 ("r", k1, day, time)
        (quad_mem_pool (Or.inr rfl) (qualKeyR_pool hk1) hd ht)
        ("r", k2, day, time)
        (quad_mem_pool (Or.inr rfl) (qualKeyR_pool hk2) hd ht) heq
      exact congrArg (fun q => q.2.1) h
    · intro x hx1 hx2
      rcases List.mem_map.1 hx1 with ⟨k1, hk1, he1⟩
      rcases List.mem_map.1 hx2 with ⟨k2, hk2, he2⟩
      have h := h3 ("t", k1, day, time)
        (quad_mem_pool (Or.inl rfl) (qualKeyT_pool hk1) hd ht)
        ("r", k2, day, time)
        (quad_mem_pool (Or.inr rfl) (qualKeyR_pool hk2) hd ht)
        (he1.trans he2.symm)
      have : ("t" : String) = "r" := congrArg (fun q => q.1) h
      exact absurd this (by decide)

theorem gridPairs_nodup {days ts : List String}
    (hdn : days.Nodup) (htn : ts.Nodup) : (gridPairs days ts).Nodup := by
  unfold gridPairs
  rw [List.nodup_flatMap]
  constructor
  · intro d _
    refine List.Nodup.map ?_ htn
    intro t1 t2 h
    exact congrArg Prod.snd h
  · refine hdn.imp_of_mem ?_
    intro d1 d2 _ _ hne x hx1 hx2
    rcases List.mem_map.1 hx1 with ⟨t1, _, he1⟩
    rcases List.mem_map.1 hx2 with ⟨t2, _, he2⟩
    have : d1 = d2 := by
      have h1 : x.1 = d1 := by rw [← he1]
      have h2 : x.1 = d2 := by rw [← he2]
      rw [← h1, h2]
    exact hne this

theorem mem_gridPairs {days ts : List String} {p : String × String}
    (hp : p ∈ gridPairs days ts) : p.1 ∈ days ∧ p.2 ∈ ts := by
  unfold gridPairs at hp
  rcases List.mem_flatMap.1 hp with ⟨d, hd, hmap⟩
  rcases List.mem_map.1 hmap with ⟨t, ht, rfl⟩
  exact ⟨hd, ht⟩

theorem qualEnc_flatMap_nodup {entries : List Entry} {days ts : List String}
    (hdn : days.Nodup) (htn : ts.Nodup)
    (h3 : ∀ q1 ∈ quadPool entries days ts, ∀ q2 ∈ quadPool entries days ts,
      encQuad q1 = encQuad q2 → q1 = q2) :
    ((gridPairs days ts).flatMap
      (fun p => qualEnc entries p.1 p.2)).Nodup := by
  rw [List.nodup_flatMap]
  constructor
  · intro p hp
    rcases mem_gridPairs hp with ⟨hd, ht⟩
    exact qualEnc_nodup_single h3 hd ht
  · refine (gridPairs_nodup hdn htn).imp_of_mem ?_
    intro p1 p2 hp1 hp2 hne x hx1 hx2
    rcases mem_gridPairs hp1 with ⟨hd1, ht1⟩
    rcases mem_gridPairs hp2 with ⟨hd2, ht2⟩
    rcases mem_qualEnc_quad hd1 ht1 hx1 with ⟨q1, hq1, he1, hqd1, hqt1⟩
    rcases mem_qualEnc_quad hd2 ht2 hx2 with ⟨q2, hq2, he2, hqd2, hqt2⟩
    have hq := h3 q1 hq1 q2 hq2 (he1.symm.trans he2)
    refine hne ?_
    have h1 : p1 = (q1.2.2.1, q1.2.2.2) := by
      rw [hqd1, hqt1]
    have h2 : p2 = (q2.2.2.1, q2.2.2.2) := by
      rw [hqd2, hqt2]
    rw [h1, h2, hq]

/-- C2 (amended): the badge count equals the scan length whenever the days
and time slots are duplicate-free and the dedup-string builder is
injective on the quadruples that can arise (kind, lowercased value, day,
time); the hyphen-joined encoding can otherwise collide across distinct
slots or values. -/
theorem c2_amended :
    ∀ (entries : List Entry) (days ts : List String),
    days.Nodup → ts.Nodup →
    (∀ q1 ∈ quadPool entries days ts, ∀ q2 ∈ quadPool entries days ts,
      encQuad q1 = encQuad q2 → q1 = q2) →
    conflictCount entries days ts = (scanConflicts entries days ts).length := by
  intro entries days ts hdn htn h3
  have hnd := qualEnc_flatMap_nodup hdn htn h3
  have hc : conflictCount entries days ts =
      ((gridPairs days ts).foldl
        (fun st p => countSlotStep entries p.1 st p.2)
        ((0 : Nat), ([] : List String))).1 := by
    unfold conflictCount countDayStep
    rw [foldl_nested (fun st d t => countSlotStep entries d st t) days ts]
  have hs : scanConflicts entries days ts =
      (gridPairs days ts).foldl
        (fun acc p => scanSlotStep entries p.1 acc p.2) [] := by
    unfold scanConflicts scanDayStep
    rw [foldl_nested (fun acc d t => scanSlotStep entries d acc t) days ts]
  rw [hc, hs,
    count_fold_pairs entries (gridPairs days ts) 0 [] hnd
      (fun x _ hx => by simp at hx),
    scan_fold_pairs entries (gridPairs days ts) []]
  simp

def cwEntry1 : Entry :=
  { group := "A", day := "Mon", time := "09:00", course := "c1",
    teacher := "x", room := "", subjectType := "lecture", duration := 1 }

def cwEntry2 : Entry :=
  { group := "B", day := "Mon", time := "09:00", course := "c2",
    teacher := "x", room := "", subjectType := "lecture", duration := 1 }

/-- C2 witness: a concrete one-slot schedule with a genuine teacher clash,
on which the hypotheses hold by computation. -/
theorem c2_amended_witness :
    conflictCount [cwEntry1, cwEntry2] ["Mon"] ["09:00"] =
      (scanConflicts [cwEntry1, cwEntry2] ["Mon"] ["09:00"]).length :=
  c2_amended [cwEntry1, cwEntry2] ["Mon"] ["09:00"]
    (by decide) (by decide) (by decide)

end Timetable


